import Mathlib

/-!
Shallow embedding of the DflipDaisy split-central matrix scanner
(`src/rmk-dflipdaisy/src/custom/central.rs`, `CentralMatrix`).

The hardware pins, the `embassy` timers and the `rmk` crate types
(`KeyState`, `DebounceState`, the debouncer trait objects and the
`key_event_channel`) live outside this repository; they are modelled here
abstractly, exactly as the scanner uses them:
* a pin read `in_pin.is_high().ok()` is an environment-supplied
  `Option Bool` (`none` models a failed read);
* a pin write `out_pin.set_high().ok()` is an environment-supplied
  `Option Unit` whose value the code discards;
* the debouncer is an arbitrary state machine
  `σ → … → DebounceState × σ` standing for
  `DebouncerTrait::detect_change_with_debounce` (which takes `&mut self`);
* the channel send is modelled by appending to an event list;
* `Instant` is a `Nat` tick count with `ticksPerSec` ticks per second
  (`Instant::elapsed().as_secs()` becomes `(now - start) / ticksPerSec`,
  with saturating subtraction as in embassy-time).

Compile-time `cfg` features (`col2row`, `async_matrix`) and the const
generics (`ROW_OFFSET`, `COL_OFFSET`, `INPUT_PIN_NUM`, `OUTPUT_PIN_NUM`)
become fields of a `Config` record, so every theorem covers both wiring
orientations and both feature settings at once.
-/

/-- `rmk::matrix::KeyState`, restricted to the one field the scanner
reads and writes: the logical pressed bit. -/
structure KeyState where
  pressed : Bool
deriving Repr, DecidableEq

/-- `KeyState::default()`: unpressed. -/
def KeyState.default : KeyState := ⟨false⟩

/-- `KeyState::toggle_pressed`: flip the pressed bit. -/
def KeyState.toggle_pressed (k : KeyState) : KeyState := ⟨!k.pressed⟩

/-- `rmk::debounce::DebounceState` (the scanner only distinguishes
`Debounced` from everything else). -/
inductive DebounceState where
  | Debounced
  | Ignored
  | Unchanged
deriving Repr, DecidableEq

/-- `rmk::keyboard::KeyEvent`: row and col are `u8` in the source, so the
values stored here are always reduced mod 256 at construction. -/
structure KeyEvent where
  row : Nat
  col : Nat
  pressed : Bool
deriving Repr, DecidableEq

/-- The compile-time configuration of `CentralMatrix`: const generic
arguments, the two `cfg` features that affect the scanner, and the
debouncer's transition function (argument order as in the source call
`detect_change_with_debounce(in_idx, out_idx, level, key_state)`). -/
structure Config (σ : Type) where
  ROW_OFFSET : Nat
  COL_OFFSET : Nat
  INPUT_PIN_NUM : Nat
  OUTPUT_PIN_NUM : Nat
  col2row : Bool
  async_matrix : Bool
  detect_change_with_debounce : σ → Nat → Nat → Bool → KeyState → DebounceState × σ

/-- The mutable state of `CentralMatrix` (pins carry no state in the
model; the `channel` field records, in order, every `KeyEvent` the
scanner has sent on `key_event_channel`). -/
structure CentralMatrix (σ : Type) where
  key_states : List (List KeyState)
  debouncer : σ
  scan_start : Option Nat
  channel : List KeyEvent

/-- `CentralMatrix::new`: default (unpressed) key states, no scan-start
timestamp, and nothing sent on the channel yet. -/
def CentralMatrix.new (cfg : Config σ) (deb : σ) : CentralMatrix σ :=
  { key_states :=
      List.replicate cfg.OUTPUT_PIN_NUM (List.replicate cfg.INPUT_PIN_NUM KeyState.default),
    debouncer := deb,
    scan_start := none,
    channel := [] }

/-- Well-formedness of the state: the `key_states` grid has the shape
`[[KeyState; INPUT_PIN_NUM]; OUTPUT_PIN_NUM]` guaranteed by the Rust
array types. -/
def WF (cfg : Config σ) (m : CentralMatrix σ) : Prop :=
  m.key_states.length = cfg.OUTPUT_PIN_NUM ∧
    ∀ r ∈ m.key_states, r.length = cfg.INPUT_PIN_NUM

instance (cfg : Config σ) (m : CentralMatrix σ) : Decidable (WF cfg m) := by
  unfold WF; infer_instance

/-- Read `key_states[o][i]`; `none` models the Rust index panic. -/
def getKS (ks : List (List KeyState)) (o i : Nat) : Option KeyState :=
  (ks[o]?).bind fun r => r[i]?

/-- Write `key_states[o][i] = v` (only reached on in-bounds indices in
the scanner, where the Rust indexing cannot panic). -/
def setKS (ks : List (List KeyState)) (o i : Nat) (v : KeyState) : List (List KeyState) :=
  match ks[o]? with
  | some r => ks.set o (r.set i v)
  | none => ks

/-- Global row carried by the event emitted for cell `(out_idx, in_idx)`:
`(in_idx + ROW_OFFSET) as u8` under `col2row`, else
`(out_idx + ROW_OFFSET) as u8`. -/
def eventRow (cfg : Config σ) (o i : Nat) : Nat :=
  if cfg.col2row then (i + cfg.ROW_OFFSET) % 256 else (o + cfg.ROW_OFFSET) % 256

/-- Global col carried by the event emitted for cell `(out_idx, in_idx)`:
`(out_idx + COL_OFFSET) as u8` under `col2row`, else
`(in_idx + COL_OFFSET) as u8`. -/
def eventCol (cfg : Config σ) (o i : Nat) : Nat :=
  if cfg.col2row then (o + cfg.COL_OFFSET) % 256 else (i + cfg.COL_OFFSET) % 256

/-- One iteration of the inner scan loop body for cell
`(out_idx, in_idx) = (o, i)`: debounce the raw sample
(`raw.getD false` is `is_high().ok().unwrap_or_default()`), on
`Debounced` toggle the stored bit and send a `KeyEvent` with the new
stored value, then (under `async_matrix`) refresh `scan_start` when the
cell is pressed. -/
def cellStep (cfg : Config σ) (now : Nat) (raw : Option Bool) (o i : Nat)
    (m : CentralMatrix σ) : Option (CentralMatrix σ) :=
  match getKS m.key_states o i with
  | none => none
  | some ks0 =>
    let r := cfg.detect_change_with_debounce m.debouncer i o (raw.getD false) ks0
    let m1 : CentralMatrix σ :=
      match r.1 with
      | DebounceState.Debounced =>
        let ks1 := ks0.toggle_pressed
        { m with
          debouncer := r.2,
          key_states := setKS m.key_states o i ks1,
          channel := m.channel ++ [⟨eventRow cfg o i, eventCol cfg o i, ks1.pressed⟩] }
      | _ => { m with debouncer := r.2 }
    match getKS m1.key_states o i with
    | none => none
    | some ksNow =>
      if cfg.async_matrix && ksNow.pressed then
        some { m1 with scan_start := some now }
      else
        some m1

/-- The inner loop over the given input-pin indices (the source iterates
`self.input_pins.iter_mut().enumerate()`, i.e. `List.range INPUT_PIN_NUM`). -/
def innerAux (cfg : Config σ) (now : Nat) (reads : Nat → Option Bool) (o : Nat) :
    List Nat → CentralMatrix σ → Option (CentralMatrix σ)
  | [], m => some m
  | i :: is, m =>
    match cellStep cfg now (reads i) o i m with
    | none => none
    | some m2 => innerAux cfg now reads o is m2

/-- Inner loop of `CentralMatrix::scan` for output pin `o`. -/
def scanInner (cfg : Config σ) (now : Nat) (reads : Nat → Option Bool) (o : Nat)
    (m : CentralMatrix σ) : Option (CentralMatrix σ) :=
  innerAux cfg now reads o (List.range cfg.INPUT_PIN_NUM) m

/-- The outer loop over the given output-pin indices.  `writeRes o` is
the result of the two `set_high()` / `set_low()` calls on output pin `o`;
the source discards it with `.ok()`, which the `let _ :=` bindings
mirror. -/
def outerAux (cfg : Config σ) (now : Nat) (reads : Nat → Nat → Option Bool)
    (writeRes : Nat → Option Unit) :
    List Nat → CentralMatrix σ → Option (CentralMatrix σ)
  | [], m => some m
  | o :: os, m =>
    let _hi := writeRes o
    match scanInner cfg now (reads o) o m with
    | none => none
    | some m2 =>
      let _lo := writeRes o
      outerAux cfg now reads writeRes os m2

/-- One full polling pass of `CentralMatrix::scan` (one trip around the
`loop`, without the `wait_for_key` prologue): outer iteration over
output pins `0, 1, …`, inner iteration over input pins `0, 1, …`.
`reads o i` is the sample of input pin `i` while output pin `o` is
driven high. -/
def scanCycle (cfg : Config σ) (now : Nat) (reads : Nat → Nat → Option Bool)
    (writeRes : Nat → Option Unit) (m : CentralMatrix σ) : Option (CentralMatrix σ) :=
  outerAux cfg now reads writeRes (List.range cfg.OUTPUT_PIN_NUM) m

/-- embassy `Instant` ticks per second in the model. -/
def ticksPerSec : Nat := 1000000

/-- Pin-level actions performed by `wait_for_key`, recorded as a trace.
`readPin` never occurs in a `wait_for_key` trace: the wait phase does no
polling. -/
inductive PinAction where
  | setHigh (idx : Nat)
  | setLow (idx : Nat)
  | settle
  | waitAnyHigh
  | readPin (o i : Nat)
deriving Repr, DecidableEq

/-- Result of one `wait_for_key` call: whether the blocking branch was
taken, the pin actions performed, and the new `scan_start`. -/
structure WaitResult where
  blocked : Bool
  actions : List PinAction
  scan_start : Option Nat
deriving Repr, DecidableEq

/-- `CentralMatrix::wait_for_key` (`async_matrix` build): if `scan_start`
is set and less than one second has elapsed, return at once; otherwise
(including when `scan_start` is unset) drive every output pin high,
settle, block on `select_slice` of `wait_for_high` over all input pins,
drive every output pin low again, and set `scan_start` to the wake-up
instant.  `nowEnter` is the instant at entry, `nowWake` the instant after
the blocking wait returns. -/
def wait_for_key (cfg : Config σ) (nowEnter nowWake : Nat) (ss : Option Nat) : WaitResult :=
  let blockPath : WaitResult :=
    { blocked := true,
      actions :=
        ((List.range cfg.OUTPUT_PIN_NUM).map PinAction.setHigh)
          ++ [PinAction.settle, PinAction.waitAnyHigh]
          ++ ((List.range cfg.OUTPUT_PIN_NUM).map PinAction.setLow),
      scan_start := some nowWake }
  match ss with
  | some start =>
    if (nowEnter - start) / ticksPerSec < 1 then
      { blocked := false, actions := [], scan_start := some start }
    else
      blockPath
  | none => blockPath

/-- Per-cycle environment input: the instants at which `Instant::now()`
is sampled, the raw pin reads, and the output-pin write results. -/
structure CycleInput where
  nowEnter : Nat
  nowWake : Nat
  nowScan : Nat
  reads : Nat → Nat → Option Bool
  writeRes : Nat → Option Unit

/-- One trip around the `loop` in `CentralMatrix::scan`: the
`wait_for_key` prologue (compiled in only under `async_matrix`), then a
full polling pass. -/
def loopStep (cfg : Config σ) (inp : CycleInput) (m : CentralMatrix σ) :
    Option (CentralMatrix σ) :=
  let m1 : CentralMatrix σ :=
    if cfg.async_matrix then
      { m with scan_start := (wait_for_key cfg inp.nowEnter inp.nowWake m.scan_start).scan_start }
    else
      m
  scanCycle cfg inp.nowScan inp.reads inp.writeRes m1

/-- `n` trips around the scan loop, fed by the cycle-indexed environment
`ins`. -/
def runN (cfg : Config σ) (ins : Nat → CycleInput) (m : CentralMatrix σ) :
    Nat → Option (CentralMatrix σ)
  | 0 => some m
  | n + 1 =>
    match runN cfg ins m n with
    | none => none
    | some m2 => loopStep cfg (ins n) m2

/-- `MatrixTrait::get_key_state`: reads `key_states[row][col]`; `none`
models the Rust index panic on out-of-bounds arguments. -/
def get_key_state (m : CentralMatrix σ) (row col : Nat) : Option KeyState :=
  getKS m.key_states row col

/-- `MatrixTrait::update_key_state`: applies `f` to
`key_states[row][col]`; `none` models the index panic. -/
def update_key_state (m : CentralMatrix σ) (row col : Nat) (f : KeyState → KeyState) :
    Option (CentralMatrix σ) :=
  match getKS m.key_states row col with
  | none => none
  | some ks => some { m with key_states := setKS m.key_states row col (f ks) }

/-- The `pressed` field of the most recent event sent for cell `(o, i)`
(matched by the event's global coordinates), or `false` if none. -/
def lastPressedFor (cfg : Config σ) (evs : List KeyEvent) (o i : Nat) : Bool :=
  match (evs.filter fun e => e.row == eventRow cfg o i && e.col == eventCol cfg o i).getLast? with
  | some e => e.pressed
  | none => false

/-- Bounds making the cell-to-global-coordinate map injective (the `u8`
casts do not wrap on any cell of the half). -/
def OffsetsOK (cfg : Config σ) : Prop :=
  if cfg.col2row then
    cfg.INPUT_PIN_NUM + cfg.ROW_OFFSET ≤ 256 ∧ cfg.OUTPUT_PIN_NUM + cfg.COL_OFFSET ≤ 256
  else
    cfg.OUTPUT_PIN_NUM + cfg.ROW_OFFSET ≤ 256 ∧ cfg.INPUT_PIN_NUM + cfg.COL_OFFSET ≤ 256

instance (cfg : Config σ) : Decidable (OffsetsOK cfg) := by
  unfold OffsetsOK; infer_instance

/-- Some cell of the grid is currently pressed. -/
def anyPressed (ks : List (List KeyState)) : Bool :=
  ks.any fun r => r.any fun k => k.pressed

/-- Strict lexicographic order on cells `(out_idx, in_idx)`: the stable
scan order. -/
def cellLt (a b : Nat × Nat) : Prop :=
  a.1 < b.1 ∨ (a.1 = b.1 ∧ a.2 < b.2)

instance (a b : Nat × Nat) : Decidable (cellLt a b) := by
  unfold cellLt; infer_instance

/-- The `scan_start` refresh at the end of a cell step (`async_matrix`
only, and only when the cell is pressed after the debounce decision). -/
def withStart (cfg : Config σ) (now : Nat) (ksNow : KeyState) (base : CentralMatrix σ) :
    CentralMatrix σ :=
  if cfg.async_matrix && ksNow.pressed then { base with scan_start := some now } else base

/-- The state written by the `Debounced` arm for cell `(o, i)`. -/
def debouncedState (cfg : Config σ) (o i : Nat) (ks0 : KeyState) (deb2 : σ)
    (m : CentralMatrix σ) : CentralMatrix σ :=
  { m with
    debouncer := deb2,
    key_states := setKS m.key_states o i ks0.toggle_pressed,
    channel := m.channel ++ [⟨eventRow cfg o i, eventCol cfg o i, ks0.toggle_pressed.pressed⟩] }

/-- The Key-State Store mirrors the event stream: every in-range cell's
stored pressed bit equals the `pressed` field of the most recent event
sent for that cell (`false` when none has been sent). -/
def Mirror (cfg : Config σ) (m : CentralMatrix σ) : Prop :=
  ∀ o, o < cfg.OUTPUT_PIN_NUM → ∀ i, i < cfg.INPUT_PIN_NUM →
    getKS m.key_states o i = some ⟨lastPressedFor cfg m.channel o i⟩

instance (cfg : Config σ) (m : CentralMatrix σ) : Decidable (Mirror cfg m) := by
  unfold Mirror; infer_instance

/-! ### Concrete instances used to exercise the theorems -/

/-- A debouncer transition used only to exercise the theorems on
concrete inputs: it confirms every raw change immediately (the behaviour
of a one-sample `RapidDebouncer`). -/
def exDetect : Unit → Nat → Nat → Bool → KeyState → DebounceState × Unit :=
  fun _ _ _ lvl ks =>
    (if lvl != ks.pressed then DebounceState.Debounced else DebounceState.Unchanged, ())

/-- A 2×2 `col2row` half with offsets (4, 6) and `async_matrix` on. -/
def exCfg : Config Unit :=
  { ROW_OFFSET := 4, COL_OFFSET := 6, INPUT_PIN_NUM := 2, OUTPUT_PIN_NUM := 2,
    col2row := true, async_matrix := true,
    detect_change_with_debounce := exDetect }

/-- Sample reads: cells (0,0) and (1,1) are high, the read of cell
(1,0) fails, cell (0,1) is low. -/
def exReads : Nat → Nat → Option Bool :=
  fun o i =>
    if o = 0 ∧ i = 0 then some true
    else if o = 1 ∧ i = 1 then some true
    else if o = 1 ∧ i = 0 then none
    else some false

def exWrite : Nat → Option Unit := fun _ => some ()

def exM0 : CentralMatrix Unit := CentralMatrix.new exCfg ()

def exIns : Nat → CycleInput := fun _ => ⟨0, 3, 7, exReads, exWrite⟩

/-- The state after one scan pass of `exCfg` over `exM0` with `exReads`
at instant 7 (also the state after one full `loopStep` with `exIns`). -/
def exM1 : CentralMatrix Unit :=
  { key_states := [[⟨true⟩, ⟨false⟩], [⟨false⟩, ⟨true⟩]],
    debouncer := (),
    scan_start := some 7,
    channel := [⟨4, 6, true⟩, ⟨5, 7, true⟩] }

/-- The state after a single cell step on cell (0,0) of `exM0`. -/
def exM2 : CentralMatrix Unit :=
  { key_states := [[⟨true⟩, ⟨false⟩], [⟨false⟩, ⟨false⟩]],
    debouncer := (),
    scan_start := some 7,
    channel := [⟨4, 6, true⟩] }

/-- Like `exCfg` but with a row offset so large that the `u8` cast
wraps. -/
def exCfg9 : Config Unit := { exCfg with ROW_OFFSET := 300 }

/-- The state after a single cell step on cell (0,0) of the fresh
`exCfg9` state: the emitted row is (0 + 300) mod 256 = 44. -/
def exM9 : CentralMatrix Unit :=
  { key_states := [[⟨true⟩, ⟨false⟩], [⟨false⟩, ⟨false⟩]],
    debouncer := (),
    scan_start := some 7,
    channel := [⟨44, 6, true⟩] }

/-! ### Basic lemmas about the key-state grid -/

theorem getKS_isSome_of_WF (cfg : Config σ) (m : CentralMatrix σ) (hwf : WF cfg m)
    (o i : Nat) (ho : o < cfg.OUTPUT_PIN_NUM) (hi : i < cfg.INPUT_PIN_NUM) :
    ∃ ks, getKS m.key_states o i = some ks := by
  obtain ⟨hlen, hrows⟩ := hwf
  have ho' : o < m.key_states.length := by omega
  have hr : m.key_states[o]? = some m.key_states[o] := List.getElem?_eq_getElem ho'
  have hrmem : m.key_states[o] ∈ m.key_states := List.getElem_mem ho'
  have hi' : i < m.key_states[o].length := by rw [hrows _ hrmem]; exact hi
  refine ⟨m.key_states[o][i], ?_⟩
  unfold getKS
  rw [hr, Option.some_bind]
  exact List.getElem?_eq_getElem hi'

theorem getKS_eq_none_of_oob (cfg : Config σ) (m : CentralMatrix σ) (hwf : WF cfg m)
    (o i : Nat) (h : cfg.OUTPUT_PIN_NUM ≤ o ∨ cfg.INPUT_PIN_NUM ≤ i) :
    getKS m.key_states o i = none := by
  obtain ⟨hlen, hrows⟩ := hwf
  rcases h with h | h
  · have hnone : m.key_states[o]? = none := List.getElem?_eq_none_iff.mpr (by omega)
    unfold getKS
    rw [hnone, Option.none_bind]
  · unfold getKS
    cases hr : m.key_states[o]? with
    | none => rfl
    | some r =>
      have hrmem : r ∈ m.key_states := List.getElem?_mem hr
      rw [Option.some_bind]
      exact List.getElem?_eq_none_iff.mpr (by rw [hrows r hrmem]; omega)

theorem getKS_setKS_self (ks : List (List KeyState)) (o i : Nat) (v w : KeyState)
    (h : getKS ks o i = some w) :
    getKS (setKS ks o i v) o i = some v := by
  unfold getKS at h
  cases hr : ks[o]? with
  | none => rw [hr, Option.none_bind] at h; exact absurd h (by simp)
  | some r =>
    rw [hr, Option.some_bind] at h
    have ho : o < ks.length := (List.getElem?_eq_some.mp hr).1
    have hi : i < r.length := (List.getElem?_eq_some.mp h).1
    have hset : setKS ks o i v = ks.set o (r.set i v) := by unfold setKS; rw [hr]
    unfold getKS
    rw [hset, List.getElem?_set_self ho, Option.some_bind]
    exact List.getElem?_set_self (by simpa using hi)

theorem getKS_setKS_ne (ks : List (List KeyState)) (o i o' i' : Nat) (v : KeyState)
    (h : o' ≠ o ∨ i' ≠ i) :
    getKS (setKS ks o i v) o' i' = getKS ks o' i' := by
  cases hr : ks[o]? with
  | none =>
    have hset : setKS ks o i v = ks := by unfold setKS; rw [hr]
    rw [hset]
  | some r =>
    have hset : setKS ks o i v = ks.set o (r.set i v) := by unfold setKS; rw [hr]
    unfold getKS
    rw [hset]
    by_cases ho : o' = o
    · subst ho
      have hi : i' ≠ i := by tauto
      have holt : o' < ks.length := (List.getElem?_eq_some.mp hr).1
      rw [List.getElem?_set_self holt, hr, Option.some_bind, Option.some_bind]
      exact List.getElem?_set_ne (Ne.symm hi)
    · rw [List.getElem?_set_ne (fun he => ho he.symm)]

theorem WF_setKS (cfg : Config σ) (m : CentralMatrix σ) (hwf : WF cfg m) (o i : Nat)
    (v : KeyState) :
    (setKS m.key_states o i v).length = cfg.OUTPUT_PIN_NUM ∧
      ∀ r ∈ setKS m.key_states o i v, r.length = cfg.INPUT_PIN_NUM := by
  obtain ⟨hlen, hrows⟩ := hwf
  unfold setKS
  cases hr : m.key_states[o]? with
  | none => exact ⟨hlen, hrows⟩
  | some r =>
    constructor
    · rw [List.length_set]; exact hlen
    · intro r' hr'
      rcases List.mem_or_eq_of_mem_set hr' with hmem | heq
      · exact hrows r' hmem
      · subst heq
        rw [List.length_set]
        exact hrows r (List.getElem?_mem hr)

/-! ### Anatomy of one cell step -/

theorem cellStep_cases (cfg : Config σ) (now : Nat) (raw : Option Bool) (o i : Nat)
    (m m' : CentralMatrix σ) (h : cellStep cfg now raw o i m = some m') :
    ∃ ks0, getKS m.key_states o i = some ks0 ∧
      (((cfg.detect_change_with_debounce m.debouncer i o (raw.getD false) ks0).1 =
          DebounceState.Debounced ∧
        m' = withStart cfg now ks0.toggle_pressed
          (debouncedState cfg o i ks0
            (cfg.detect_change_with_debounce m.debouncer i o (raw.getD false) ks0).2 m)) ∨
       ((cfg.detect_change_with_debounce m.debouncer i o (raw.getD false) ks0).1 ≠
          DebounceState.Debounced ∧
        m' = withStart cfg now ks0
          { m with
            debouncer :=
              (cfg.detect_change_with_debounce m.debouncer i o (raw.getD false) ks0).2 })) := by
  unfold cellStep at h
  cases hks : getKS m.key_states o i with
  | none => rw [hks] at h; exact absurd h (by simp)
  | some ks0 =>
    rw [hks] at h
    dsimp only at h
    refine ⟨ks0, rfl, ?_⟩
    cases hds : (cfg.detect_change_with_debounce m.debouncer i o (raw.getD false) ks0).1 with
    | Debounced =>
      rw [hds] at h
      dsimp only at h
      refine Or.inl ⟨rfl, ?_⟩
      have hget :
          getKS (setKS m.key_states o i ks0.toggle_pressed) o i = some ks0.toggle_pressed :=
        getKS_setKS_self m.key_states o i ks0.toggle_pressed ks0 hks
      rw [hget] at h
      dsimp only at h
      unfold withStart debouncedState
      by_cases ha : cfg.async_matrix && ks0.toggle_pressed.pressed
      · rw [if_pos ha] at h ⊢
        exact (Option.some_inj.mp h).symm
      · rw [if_neg ha] at h ⊢
        exact (Option.some_inj.mp h).symm
    | Ignored =>
      rw [hds] at h
      dsimp only at h
      refine Or.inr ⟨fun hc => DebounceState.noConfusion hc, ?_⟩
      rw [hks] at h
      dsimp only at h
      unfold withStart
      by_cases ha : cfg.async_matrix && ks0.pressed
      · rw [if_pos ha] at h ⊢
        exact (Option.some_inj.mp h).symm
      · rw [if_neg ha] at h ⊢
        exact (Option.some_inj.mp h).symm
    | Unchanged =>
      rw [hds] at h
      dsimp only at h
      refine Or.inr ⟨fun hc => DebounceState.noConfusion hc, ?_⟩
      rw [hks] at h
      dsimp only at h
      unfold withStart
      by_cases ha : cfg.async_matrix && ks0.pressed
      · rw [if_pos ha] at h ⊢
        exact (Option.some_inj.mp h).symm
      · rw [if_neg ha] at h ⊢
        exact (Option.some_inj.mp h).symm

theorem withStart_key_states (cfg : Config σ) (now : Nat) (k : KeyState)
    (b : CentralMatrix σ) : (withStart cfg now k b).key_states = b.key_states := by
  unfold withStart; split <;> rfl

theorem withStart_channel (cfg : Config σ) (now : Nat) (k : KeyState)
    (b : CentralMatrix σ) : (withStart cfg now k b).channel = b.channel := by
  unfold withStart; split <;> rfl

theorem withStart_scan_start (cfg : Config σ) (now : Nat) (k : KeyState)
    (b : CentralMatrix σ) :
    (withStart cfg now k b).scan_start =
      if cfg.async_matrix && k.pressed then some now else b.scan_start := by
  unfold withStart; split <;> simp_all

/-- Frame and channel behaviour of one cell step: cells other than
`(o, i)` are untouched, `scan_start` is either kept or refreshed to
`now`, and either nothing is sent and the grid is unchanged, or the
`(o, i)` bit is toggled and exactly one event for `(o, i)` carrying the
new bit is sent. -/
theorem cellStep_spec (cfg : Config σ) (now : Nat) (raw : Option Bool) (o i : Nat)
    (m m' : CentralMatrix σ) (h : cellStep cfg now raw o i m = some m') :
    (∀ o' i', (o' ≠ o ∨ i' ≠ i) → getKS m'.key_states o' i' = getKS m.key_states o' i') ∧
    (m'.scan_start = m.scan_start ∨ m'.scan_start = some now) ∧
    ((m'.key_states = m.key_states ∧ m'.channel = m.channel) ∨
     (∃ ks0, getKS m.key_states o i = some ks0 ∧
        getKS m'.key_states o i = some ks0.toggle_pressed ∧
        m'.channel = m.channel ++
          [⟨eventRow cfg o i, eventCol cfg o i, ks0.toggle_pressed.pressed⟩])) := by
  obtain ⟨ks0, hks, harm⟩ := cellStep_cases cfg now raw o i m m' h
  rcases harm with ⟨_, hm'⟩ | ⟨_, hm'⟩
  · subst hm'
    refine ⟨?_, ?_, Or.inr ⟨ks0, hks, ?_, ?_⟩⟩
    · intro o' i' hne
      rw [withStart_key_states]
      exact getKS_setKS_ne m.key_states o i o' i' ks0.toggle_pressed
        (by rcases hne with hne | hne <;> [left; right] <;> exact hne)
    · rw [withStart_scan_start]
      split
      · right; rfl
      · left; rfl
    · rw [withStart_key_states]
      exact getKS_setKS_self m.key_states o i ks0.toggle_pressed ks0 hks
    · rw [withStart_channel]
      rfl
  · subst hm'
    refine ⟨?_, ?_, Or.inl ⟨?_, ?_⟩⟩
    · intro o' i' _
      rw [withStart_key_states]
    · rw [withStart_scan_start]
      split
      · right; rfl
      · left; rfl
    · rw [withStart_key_states]
    · rw [withStart_channel]

/-- The `scan_start` refresh in one cell step, phrased through the
cell's state after the debounce decision (which is also its state at the
end of the whole cycle, since every cell is visited once per cycle). -/
theorem cellStep_scan_start (cfg : Config σ) (now : Nat) (raw : Option Bool) (o i : Nat)
    (m m' : CentralMatrix σ) (h : cellStep cfg now raw o i m = some m') :
    ∃ ksNow, getKS m'.key_states o i = some ksNow ∧
      m'.scan_start =
        if cfg.async_matrix && ksNow.pressed then some now else m.scan_start := by
  obtain ⟨ks0, hks, harm⟩ := cellStep_cases cfg now raw o i m m' h
  rcases harm with ⟨_, hm'⟩ | ⟨_, hm'⟩
  · subst hm'
    refine ⟨ks0.toggle_pressed, ?_, ?_⟩
    · rw [withStart_key_states]
      exact getKS_setKS_self m.key_states o i ks0.toggle_pressed ks0 hks
    · rw [withStart_scan_start]
      unfold debouncedState
      split <;> rfl
  · subst hm'
    refine ⟨ks0, ?_, ?_⟩
    · rw [withStart_key_states]
      exact hks
    · rw [withStart_scan_start]

theorem cellStep_WF (cfg : Config σ) (now : Nat) (raw : Option Bool) (o i : Nat)
    (m m' : CentralMatrix σ) (hwf : WF cfg m) (h : cellStep cfg now raw o i m = some m') :
    WF cfg m' := by
  obtain ⟨ks0, hks, harm⟩ := cellStep_cases cfg now raw o i m m' h
  rcases harm with ⟨_, hm'⟩ | ⟨_, hm'⟩ <;> subst hm'
  · have := WF_setKS cfg m hwf o i ks0.toggle_pressed
    unfold WF
    rw [withStart_key_states]
    exact this
  · unfold WF
    rw [withStart_key_states]
    exact hwf

theorem cellStep_total (cfg : Config σ) (now : Nat) (raw : Option Bool) (o i : Nat)
    (m : CentralMatrix σ) (hwf : WF cfg m) (ho : o < cfg.OUTPUT_PIN_NUM)
    (hi : i < cfg.INPUT_PIN_NUM) :
    ∃ m', cellStep cfg now raw o i m = some m' := by
  obtain ⟨ks0, hks⟩ := getKS_isSome_of_WF cfg m hwf o i ho hi
  unfold cellStep
  rw [hks]
  dsimp only
  cases hds : (cfg.detect_change_with_debounce m.debouncer i o (raw.getD false) ks0).1 with
  | Debounced =>
    dsimp only
    rw [getKS_setKS_self m.key_states o i ks0.toggle_pressed ks0 hks]
    dsimp only
    split
    · exact ⟨_, rfl⟩
    · exact ⟨_, rfl⟩
  | Ignored =>
    dsimp only
    rw [hks]
    dsimp only
    split
    · exact ⟨_, rfl⟩
    · exact ⟨_, rfl⟩
  | Unchanged =>
    dsimp only
    rw [hks]
    dsimp only
    split
    · exact ⟨_, rfl⟩
    · exact ⟨_, rfl⟩

/-! ### Loop-level lemmas -/

theorem innerAux_total_WF (cfg : Config σ) (now : Nat) (reads : Nat → Option Bool) (o : Nat)
    (is : List Nat) (m : CentralMatrix σ) (hwf : WF cfg m) (ho : o < cfg.OUTPUT_PIN_NUM)
    (his : ∀ i ∈ is, i < cfg.INPUT_PIN_NUM) :
    ∃ m', innerAux cfg now reads o is m = some m' ∧ WF cfg m' := by
  induction is generalizing m with
  | nil => exact ⟨m, rfl, hwf⟩
  | cons j is ih =>
    obtain ⟨m2, hm2⟩ :=
      cellStep_total cfg now (reads j) o j m hwf ho (his j (List.mem_cons_self j is))
    have hwf2 : WF cfg m2 := cellStep_WF cfg now (reads j) o j m m2 hwf hm2
    obtain ⟨m', hm', hwf'⟩ := ih m2 hwf2 (fun i hi => his i (List.mem_cons_of_mem j hi))
    refine ⟨m', ?_, hwf'⟩
    unfold innerAux
    rw [hm2]
    exact hm'

theorem outerAux_total_WF (cfg : Config σ) (now : Nat) (reads : Nat → Nat → Option Bool)
    (writeRes : Nat → Option Unit) (os : List Nat) (m : CentralMatrix σ) (hwf : WF cfg m)
    (hos : ∀ o ∈ os, o < cfg.OUTPUT_PIN_NUM) :
    ∃ m', outerAux cfg now reads writeRes os m = some m' ∧ WF cfg m' := by
  induction os generalizing m with
  | nil => exact ⟨m, rfl, hwf⟩
  | cons o os ih =>
    obtain ⟨m2, hm2, hwf2⟩ :=
      innerAux_total_WF cfg now (reads o) o (List.range cfg.INPUT_PIN_NUM) m hwf
        (hos o (List.mem_cons_self o os)) (fun i hi => List.mem_range.mp hi)
    obtain ⟨m', hm', hwf'⟩ := ih m2 hwf2 (fun o' ho' => hos o' (List.mem_cons_of_mem o ho'))
    refine ⟨m', ?_, hwf'⟩
    unfold outerAux scanInner
    rw [hm2]
    exact hm'

theorem scanCycle_total_WF (cfg : Config σ) (now : Nat) (reads : Nat → Nat → Option Bool)
    (writeRes : Nat → Option Unit) (m : CentralMatrix σ) (hwf : WF cfg m) :
    ∃ m', scanCycle cfg now reads writeRes m = some m' ∧ WF cfg m' :=
  outerAux_total_WF cfg now reads writeRes (List.range cfg.OUTPUT_PIN_NUM) m hwf
    (fun o ho => List.mem_range.mp ho)

theorem loopStep_total_WF (cfg : Config σ) (inp : CycleInput) (m : CentralMatrix σ)
    (hwf : WF cfg m) : ∃ m', loopStep cfg inp m = some m' ∧ WF cfg m' := by
  unfold loopStep
  split
  · exact scanCycle_total_WF cfg inp.nowScan inp.reads inp.writeRes _ hwf
  · exact scanCycle_total_WF cfg inp.nowScan inp.reads inp.writeRes m hwf

theorem runN_total_WF (cfg : Config σ) (ins : Nat → CycleInput) (m : CentralMatrix σ)
    (hwf : WF cfg m) (n : Nat) : ∃ m', runN cfg ins m n = some m' ∧ WF cfg m' := by
  induction n with
  | zero => exact ⟨m, rfl, hwf⟩
  | succ n ih =>
    obtain ⟨m2, hm2, hwf2⟩ := ih
    obtain ⟨m', hm', hwf'⟩ := loopStep_total_WF cfg (ins n) m2 hwf2
    refine ⟨m', ?_, hwf'⟩
    unfold runN
    rw [hm2]
    exact hm'

theorem innerAux_frame (cfg : Config σ) (now : Nat) (reads : Nat → Option Bool) (o : Nat)
    (is : List Nat) (m m' : CentralMatrix σ) (h : innerAux cfg now reads o is m = some m')
    (o' i' : Nat) (hne : o' ≠ o ∨ i' ∉ is) :
    getKS m'.key_states o' i' = getKS m.key_states o' i' := by
  induction is generalizing m with
  | nil =>
    unfold innerAux at h
    cases h
    rfl
  | cons j is ih =>
    unfold innerAux at h
    cases hm2 : cellStep cfg now (reads j) o j m with
    | none => rw [hm2] at h; exact absurd h (by simp)
    | some m2 =>
      rw [hm2] at h
      have hstep := (cellStep_spec cfg now (reads j) o j m m2 hm2).1 o' i'
      have hrest : getKS m'.key_states o' i' = getKS m2.key_states o' i' := by
        refine ih m2 h ?_
        rcases hne with hne | hne
        · exact Or.inl hne
        · exact Or.inr fun hmem => hne (List.mem_cons_of_mem j hmem)
      rw [hrest]
      rcases hne with hne | hne
      · exact hstep (Or.inl hne)
      · exact hstep (Or.inr fun he => hne (he ▸ List.mem_cons_self j is))

theorem outerAux_frame (cfg : Config σ) (now : Nat) (reads : Nat → Nat → Option Bool)
    (writeRes : Nat → Option Unit) (os : List Nat) (m m' : CentralMatrix σ)
    (h : outerAux cfg now reads writeRes os m = some m') (o' i' : Nat) (hne : o' ∉ os) :
    getKS m'.key_states o' i' = getKS m.key_states o' i' := by
  induction os generalizing m with
  | nil =>
    unfold outerAux at h
    cases h
    rfl
  | cons o os ih =>
    unfold outerAux at h
    cases hm2 : scanInner cfg now (reads o) o m with
    | none => rw [hm2] at h; exact absurd h (by simp)
    | some m2 =>
      rw [hm2] at h
      have hrest : getKS m'.key_states o' i' = getKS m2.key_states o' i' :=
        ih m2 h (fun hmem => hne (List.mem_cons_of_mem o hmem))
      rw [hrest]
      exact innerAux_frame cfg now (reads o) o (List.range cfg.INPUT_PIN_NUM) m m2 hm2 o' i'
        (Or.inl fun he => hne (he ▸ List.mem_cons_self o os))

theorem innerAux_start_cases (cfg : Config σ) (now : Nat) (reads : Nat → Option Bool)
    (o : Nat) (is : List Nat) (m m' : CentralMatrix σ)
    (h : innerAux cfg now reads o is m = some m') :
    m'.scan_start = m.scan_start ∨ m'.scan_start = some now := by
  induction is generalizing m with
  | nil =>
    unfold innerAux at h
    cases h
    exact Or.inl rfl
  | cons j is ih =>
    unfold innerAux at h
    cases hm2 : cellStep cfg now (reads j) o j m with
    | none => rw [hm2] at h; exact absurd h (by simp)
    | some m2 =>
      rw [hm2] at h
      rcases ih m2 h with hr | hr
      · rcases (cellStep_spec cfg now (reads j) o j m m2 hm2).2.1 with hs | hs
        · exact Or.inl (hr.trans hs)
        · exact Or.inr (hr.trans hs)
      · exact Or.inr hr

theorem outerAux_start_cases (cfg : Config σ) (now : Nat) (reads : Nat → Nat → Option Bool)
    (writeRes : Nat → Option Unit) (os : List Nat) (m m' : CentralMatrix σ)
    (h : outerAux cfg now reads writeRes os m = some m') :
    m'.scan_start = m.scan_start ∨ m'.scan_start = some now := by
  induction os generalizing m with
  | nil =>
    unfold outerAux at h
    cases h
    exact Or.inl rfl
  | cons o os ih =>
    unfold outerAux at h
    cases hm2 : scanInner cfg now (reads o) o m with
    | none => rw [hm2] at h; exact absurd h (by simp)
    | some m2 =>
      rw [hm2] at h
      rcases ih m2 h with hr | hr
      · rcases innerAux_start_cases cfg now (reads o) o (List.range cfg.INPUT_PIN_NUM) m m2
          hm2 with hs | hs
        · exact Or.inl (hr.trans hs)
        · exact Or.inr (hr.trans hs)
      · exact Or.inr hr

theorem getKS_bounds (cfg : Config σ) (m : CentralMatrix σ) (hwf : WF cfg m) (o i : Nat)
    (k : KeyState) (h : getKS m.key_states o i = some k) :
    o < cfg.OUTPUT_PIN_NUM ∧ i < cfg.INPUT_PIN_NUM := by
  obtain ⟨hlen, hrows⟩ := hwf
  unfold getKS at h
  cases hr : m.key_states[o]? with
  | none => rw [hr, Option.none_bind] at h; exact absurd h (by simp)
  | some r =>
    rw [hr, Option.some_bind] at h
    have ho : o < m.key_states.length := (List.getElem?_eq_some.mp hr).1
    have hi : i < r.length := (List.getElem?_eq_some.mp h).1
    have hrmem : r ∈ m.key_states := List.getElem?_mem hr
    exact ⟨by omega, by rw [← hrows r hrmem]; exact hi⟩

theorem anyPressed_iff (ks : List (List KeyState)) :
    anyPressed ks = true ↔ ∃ o i k, getKS ks o i = some k ∧ k.pressed = true := by
  unfold anyPressed
  rw [List.any_eq_true]
  constructor
  · rintro ⟨r, hr, hp⟩
    rw [List.any_eq_true] at hp
    obtain ⟨k, hk, hkp⟩ := hp
    obtain ⟨o, ho, hro⟩ := List.mem_iff_getElem.mp hr
    obtain ⟨i, hi, hki⟩ := List.mem_iff_getElem.mp hk
    refine ⟨o, i, k, ?_, hkp⟩
    unfold getKS
    rw [List.getElem?_eq_getElem ho, Option.some_bind, hro,
      List.getElem?_eq_getElem hi, hki]
  · rintro ⟨o, i, k, hk, hkp⟩
    unfold getKS at hk
    cases hr : ks[o]? with
    | none => rw [hr, Option.none_bind] at hk; exact absurd hk (by simp)
    | some r =>
      rw [hr, Option.some_bind] at hk
      refine ⟨r, List.getElem?_mem hr, ?_⟩
      rw [List.any_eq_true]
      exact ⟨k, List.getElem?_mem hk, hkp⟩

theorem innerAux_press_set (cfg : Config σ) (now : Nat) (reads : Nat → Option Bool)
    (o : Nat) (is : List Nat) (m m' : CentralMatrix σ) (ha : cfg.async_matrix = true)
    (hnd : is.Nodup) (h : innerAux cfg now reads o is m = some m')
    (hp : ∃ i ∈ is, ∃ k, getKS m'.key_states o i = some k ∧ k.pressed = true) :
    m'.scan_start = some now := by
  induction is generalizing m with
  | nil => simp at hp
  | cons j is ih =>
    unfold innerAux at h
    cases hm2 : cellStep cfg now (reads j) o j m with
    | none => rw [hm2] at h; exact absurd h (by simp)
    | some m2 =>
      rw [hm2] at h
      obtain ⟨i, hmem, k, hk, hkp⟩ := hp
      rcases List.mem_cons.mp hmem with heq | hmem'
      · subst heq
        obtain ⟨ksNow, hksNow, hstart2⟩ :=
          cellStep_scan_start cfg now (reads i) o i m m2 hm2
        have hnotin : i ∉ is := (List.nodup_cons.mp hnd).1
        have hfr : getKS m'.key_states o i = getKS m2.key_states o i :=
          innerAux_frame cfg now reads o is m2 m' h o i (Or.inr hnotin)
        rw [hfr, hksNow] at hk
        cases hk
        rw [ha, hkp] at hstart2
        simp only [Bool.and_self, if_pos] at hstart2
        rcases innerAux_start_cases cfg now reads o is m2 m' h with hr | hr
        · rw [hr, hstart2]
        · exact hr
      · exact ih m2 (List.nodup_cons.mp hnd).2 h ⟨i, hmem', k, hk, hkp⟩

theorem innerAux_press_keep (cfg : Config σ) (now : Nat) (reads : Nat → Option Bool)
    (o : Nat) (is : List Nat) (m m' : CentralMatrix σ)
    (hnd : is.Nodup) (h : innerAux cfg now reads o is m = some m')
    (hp : ∀ i ∈ is, ∀ k, getKS m'.key_states o i = some k → k.pressed = false) :
    m'.scan_start = m.scan_start := by
  induction is generalizing m with
  | nil =>
    unfold innerAux at h
    cases h
    rfl
  | cons j is ih =>
    unfold innerAux at h
    cases hm2 : cellStep cfg now (reads j) o j m with
    | none => rw [hm2] at h; exact absurd h (by simp)
    | some m2 =>
      rw [hm2] at h
      obtain ⟨ksNow, hksNow, hstart2⟩ := cellStep_scan_start cfg now (reads j) o j m m2 hm2
      have hnotin : j ∉ is := (List.nodup_cons.mp hnd).1
      have hfr : getKS m'.key_states o j = getKS m2.key_states o j :=
        innerAux_frame cfg now reads o is m2 m' h o j (Or.inr hnotin)
      have hjp : ksNow.pressed = false :=
        hp j (List.mem_cons_self j is) ksNow (by rw [hfr]; exact hksNow)
      rw [hjp, Bool.and_false, if_neg (by simp)] at hstart2
      have hrest : m'.scan_start = m2.scan_start :=
        ih m2 (List.nodup_cons.mp hnd).2 h
          (fun i hmem k hk => hp i (List.mem_cons_of_mem j hmem) k hk)
      rw [hrest, hstart2]

theorem outerAux_press_set (cfg : Config σ) (now : Nat) (reads : Nat → Nat → Option Bool)
    (writeRes : Nat → Option Unit) (os : List Nat) (m m' : CentralMatrix σ)
    (ha : cfg.async_matrix = true) (hnd : os.Nodup)
    (h : outerAux cfg now reads writeRes os m = some m')
    (hp : ∃ o ∈ os, ∃ i < cfg.INPUT_PIN_NUM, ∃ k,
      getKS m'.key_states o i = some k ∧ k.pressed = true) :
    m'.scan_start = some now := by
  induction os generalizing m with
  | nil => simp at hp
  | cons o os ih =>
    unfold outerAux at h
    cases hm2 : scanInner cfg now (reads o) o m with
    | none => rw [hm2] at h; exact absurd h (by simp)
    | some m2 =>
      rw [hm2] at h
      obtain ⟨o0, hmem, i0, hi0, k, hk, hkp⟩ := hp
      rcases List.mem_cons.mp hmem with heq | hmem'
      · subst heq
        have hnotin : o0 ∉ os := (List.nodup_cons.mp hnd).1
        have hfr : getKS m'.key_states o0 i0 = getKS m2.key_states o0 i0 :=
          outerAux_frame cfg now reads writeRes os m2 m' h o0 i0 hnotin
        have h2 : m2.scan_start = some now := by
          refine innerAux_press_set cfg now (reads o0) o0 (List.range cfg.INPUT_PIN_NUM)
            m m2 ha (List.nodup_range cfg.INPUT_PIN_NUM) hm2 ?_
          exact ⟨i0, List.mem_range.mpr hi0, k, by rw [← hfr]; exact hk, hkp⟩
        rcases outerAux_start_cases cfg now reads writeRes os m2 m' h with hr | hr
        · rw [hr, h2]
        · exact hr
      · exact ih m2 (List.nodup_cons.mp hnd).2 h ⟨o0, hmem', i0, hi0, k, hk, hkp⟩

theorem outerAux_press_keep (cfg : Config σ) (now : Nat) (reads : Nat → Nat → Option Bool)
    (writeRes : Nat → Option Unit) (os : List Nat) (m m' : CentralMatrix σ)
    (hnd : os.Nodup) (h : outerAux cfg now reads writeRes os m = some m')
    (hp : ∀ o ∈ os, ∀ i < cfg.INPUT_PIN_NUM, ∀ k,
      getKS m'.key_states o i = some k → k.pressed = false) :
    m'.scan_start = m.scan_start := by
  induction os generalizing m with
  | nil =>
    unfold outerAux at h
    cases h
    rfl
  | cons o os ih =>
    unfold outerAux at h
    cases hm2 : scanInner cfg now (reads o) o m with
    | none => rw [hm2] at h; exact absurd h (by simp)
    | some m2 =>
      rw [hm2] at h
      have hnotin : o ∉ os := (List.nodup_cons.mp hnd).1
      have h2 : m2.scan_start = m.scan_start := by
        refine innerAux_press_keep cfg now (reads o) o (List.range cfg.INPUT_PIN_NUM)
          m m2 (List.nodup_range cfg.INPUT_PIN_NUM) hm2 ?_
        intro i hmem k hk
        have hfr : getKS m'.key_states o i = getKS m2.key_states o i :=
          outerAux_frame cfg now reads writeRes os m2 m' h o i hnotin
        exact hp o (List.mem_cons_self o os) i (List.mem_range.mp hmem) k (by rw [hfr]; exact hk)
      have hrest : m'.scan_start = m2.scan_start :=
        ih m2 (List.nodup_cons.mp hnd).2 h
          (fun o' hmem i hi k hk => hp o' (List.mem_cons_of_mem o hmem) i hi k hk)
      rw [hrest, h2]

/-! ### The store-mirrors-last-event invariant -/

theorem eventCoords_inj (cfg : Config σ) (hOK : OffsetsOK cfg) (o i o' i' : Nat)
    (ho : o < cfg.OUTPUT_PIN_NUM) (hi : i < cfg.INPUT_PIN_NUM)
    (ho' : o' < cfg.OUTPUT_PIN_NUM) (hi' : i' < cfg.INPUT_PIN_NUM)
    (hne : o' ≠ o ∨ i' ≠ i) :
    ¬(eventRow cfg o' i' = eventRow cfg o i ∧ eventCol cfg o' i' = eventCol cfg o i) := by
  unfold OffsetsOK at hOK
  unfold eventRow eventCol
  rintro ⟨hr, hc⟩
  cases hcr : cfg.col2row with
  | true =>
    rw [hcr, if_pos rfl] at hOK
    simp only [hcr, if_pos] at hr hc
    have b1 : i' + cfg.ROW_OFFSET < 256 := by omega
    have b2 : i + cfg.ROW_OFFSET < 256 := by omega
    have b3 : o' + cfg.COL_OFFSET < 256 := by omega
    have b4 : o + cfg.COL_OFFSET < 256 := by omega
    rw [Nat.mod_eq_of_lt b1, Nat.mod_eq_of_lt b2] at hr
    rw [Nat.mod_eq_of_lt b3, Nat.mod_eq_of_lt b4] at hc
    omega
  | false =>
    rw [hcr, if_neg (by simp)] at hOK
    simp only [hcr, Bool.false_eq_true, if_neg, if_false] at hr hc
    have b1 : o' + cfg.ROW_OFFSET < 256 := by omega
    have b2 : o + cfg.ROW_OFFSET < 256 := by omega
    have b3 : i' + cfg.COL_OFFSET < 256 := by omega
    have b4 : i + cfg.COL_OFFSET < 256 := by omega
    rw [Nat.mod_eq_of_lt b1, Nat.mod_eq_of_lt b2] at hr
    rw [Nat.mod_eq_of_lt b3, Nat.mod_eq_of_lt b4] at hc
    omega

theorem lastPressedFor_append_self (cfg : Config σ) (evs : List KeyEvent) (o i : Nat)
    (b : Bool) :
    lastPressedFor cfg (evs ++ [⟨eventRow cfg o i, eventCol cfg o i, b⟩]) o i = b := by
  unfold lastPressedFor
  rw [List.filter_append]
  have hsing :
      List.filter (fun e => e.row == eventRow cfg o i && e.col == eventCol cfg o i)
        [(⟨eventRow cfg o i, eventCol cfg o i, b⟩ : KeyEvent)] =
        [⟨eventRow cfg o i, eventCol cfg o i, b⟩] := by
    simp [List.filter]
  rw [hsing, List.getLast?_concat]

theorem lastPressedFor_append_other (cfg : Config σ) (evs : List KeyEvent) (o i o' i' : Nat)
    (b : Bool)
    (hne : ¬(eventRow cfg o' i' = eventRow cfg o i ∧ eventCol cfg o' i' = eventCol cfg o i)) :
    lastPressedFor cfg (evs ++ [⟨eventRow cfg o' i', eventCol cfg o' i', b⟩]) o i =
      lastPressedFor cfg evs o i := by
  unfold lastPressedFor
  rw [List.filter_append]
  have hsing :
      List.filter (fun e => e.row == eventRow cfg o i && e.col == eventCol cfg o i)
        [(⟨eventRow cfg o' i', eventCol cfg o' i', b⟩ : KeyEvent)] = [] := by
    simp only [List.filter_singleton, Bool.cond_eq_if]
    rw [if_neg]
    simp only [Bool.and_eq_true, beq_iff_eq]
    exact fun hc => hne hc
  rw [hsing, List.append_nil]

theorem cellStep_Mirror (cfg : Config σ) (now : Nat) (raw : Option Bool) (o i : Nat)
    (m m' : CentralMatrix σ) (hOK : OffsetsOK cfg) (ho : o < cfg.OUTPUT_PIN_NUM)
    (hi : i < cfg.INPUT_PIN_NUM) (hmir : Mirror cfg m)
    (h : cellStep cfg now raw o i m = some m') : Mirror cfg m' := by
  obtain ⟨hframe, _, harm⟩ := cellStep_spec cfg now raw o i m m' h
  rcases harm with ⟨hks, hch⟩ | ⟨ks0, hks0, hksnew, hch⟩
  · intro o' ho' i' hi'
    rw [hks, hch]
    exact hmir o' ho' i' hi'
  · intro o' ho' i' hi'
    by_cases hsame : o' = o ∧ i' = i
    · obtain ⟨rfl, rfl⟩ := hsame
      rw [hksnew, hch, lastPressedFor_append_self]
    · have hne : o' ≠ o ∨ i' ≠ i := by tauto
      rw [hframe o' i' hne, hch,
        lastPressedFor_append_other cfg m.channel o' i' o i _
          (eventCoords_inj cfg hOK o' i' o i ho' hi' ho hi
            (by rcases hne with hne | hne <;> [left; right] <;> exact fun he => hne he.symm))]
      exact hmir o' ho' i' hi'

theorem innerAux_Mirror (cfg : Config σ) (now : Nat) (reads : Nat → Option Bool) (o : Nat)
    (is : List Nat) (m m' : CentralMatrix σ) (hOK : OffsetsOK cfg)
    (ho : o < cfg.OUTPUT_PIN_NUM) (his : ∀ i ∈ is, i < cfg.INPUT_PIN_NUM)
    (hmir : Mirror cfg m) (h : innerAux cfg now reads o is m = some m') : Mirror cfg m' := by
  induction is generalizing m with
  | nil =>
    unfold innerAux at h
    cases h
    exact hmir
  | cons j is ih =>
    unfold innerAux at h
    cases hm2 : cellStep cfg now (reads j) o j m with
    | none => rw [hm2] at h; exact absurd h (by simp)
    | some m2 =>
      rw [hm2] at h
      exact ih m2 (fun i hmem => his i (List.mem_cons_of_mem j hmem))
        (cellStep_Mirror cfg now (reads j) o j m m2 hOK ho
          (his j (List.mem_cons_self j is)) hmir hm2) h

theorem outerAux_Mirror (cfg : Config σ) (now : Nat) (reads : Nat → Nat → Option Bool)
    (writeRes : Nat → Option Unit) (os : List Nat) (m m' : CentralMatrix σ)
    (hOK : OffsetsOK cfg) (hos : ∀ o ∈ os, o < cfg.OUTPUT_PIN_NUM) (hmir : Mirror cfg m)
    (h : outerAux cfg now reads writeRes os m = some m') : Mirror cfg m' := by
  induction os generalizing m with
  | nil =>
    unfold outerAux at h
    cases h
    exact hmir
  | cons o os ih =>
    unfold outerAux at h
    cases hm2 : scanInner cfg now (reads o) o m with
    | none => rw [hm2] at h; exact absurd h (by simp)
    | some m2 =>
      rw [hm2] at h
      exact ih m2 (fun o' hmem => hos o' (List.mem_cons_of_mem o hmem))
        (innerAux_Mirror cfg now (reads o) o (List.range cfg.INPUT_PIN_NUM) m m2 hOK
          (hos o (List.mem_cons_self o os)) (fun i hmem => List.mem_range.mp hmem) hmir hm2) h

theorem loopStep_Mirror (cfg : Config σ) (inp : CycleInput) (m m' : CentralMatrix σ)
    (hOK : OffsetsOK cfg) (hmir : Mirror cfg m) (h : loopStep cfg inp m = some m') :
    Mirror cfg m' := by
  unfold loopStep at h
  split at h
  · refine outerAux_Mirror cfg inp.nowScan inp.reads inp.writeRes
      (List.range cfg.OUTPUT_PIN_NUM) _ m' hOK (fun o ho => List.mem_range.mp ho) ?_ h
    intro o ho i hi
    exact hmir o ho i hi
  · exact outerAux_Mirror cfg inp.nowScan inp.reads inp.writeRes
      (List.range cfg.OUTPUT_PIN_NUM) m m' hOK (fun o ho => List.mem_range.mp ho) hmir h

theorem Mirror_new (cfg : Config σ) (deb : σ) : Mirror cfg (CentralMatrix.new cfg deb) := by
  intro o ho i hi
  unfold CentralMatrix.new getKS lastPressedFor
  simp only [List.filter_nil, List.getLast?_nil]
  rw [List.getElem?_eq_getElem (by simpa using ho), Option.some_bind]
  rw [List.getElem_replicate, List.getElem?_eq_getElem (by simpa using hi)]
  rw [List.getElem_replicate]
  rfl

theorem runN_Mirror (cfg : Config σ) (ins : Nat → CycleInput) (m m' : CentralMatrix σ)
    (hOK : OffsetsOK cfg) (hmir : Mirror cfg m) (n : Nat) (h : runN cfg ins m n = some m') :
    Mirror cfg m' := by
  induction n generalizing m' with
  | zero =>
    unfold runN at h
    cases h
    exact hmir
  | succ n ih =>
    unfold runN at h
    cases hm2 : runN cfg ins m n with
    | none => rw [hm2] at h; exact absurd h (by simp)
    | some m2 =>
      rw [hm2] at h
      exact loopStep_Mirror cfg (ins n) m2 m' hOK (ih m2 hm2) h

/-! ### Events emitted by one cycle, and their order -/

theorem cellStep_channel (cfg : Config σ) (now : Nat) (raw : Option Bool) (o i : Nat)
    (m m' : CentralMatrix σ) (h : cellStep cfg now raw o i m = some m') :
    m'.channel = m.channel ∨
      ∃ b, m'.channel = m.channel ++ [⟨eventRow cfg o i, eventCol cfg o i, b⟩] := by
  rcases (cellStep_spec cfg now raw o i m m' h).2.2 with ⟨_, hch⟩ | ⟨ks0, _, _, hch⟩
  · exact Or.inl hch
  · exact Or.inr ⟨ks0.toggle_pressed.pressed, hch⟩

theorem innerAux_events (cfg : Config σ) (now : Nat) (reads : Nat → Option Bool) (o : Nat)
    (is : List Nat) (m m' : CentralMatrix σ) (h : innerAux cfg now reads o is m = some m') :
    ∃ cs : List (Nat × Bool),
      m'.channel =
        m.channel ++ cs.map (fun c => ⟨eventRow cfg o c.1, eventCol cfg o c.1, c.2⟩) ∧
      List.Sublist (cs.map Prod.fst) is := by
  induction is generalizing m with
  | nil =>
    unfold innerAux at h
    cases h
    exact ⟨[], by simp, List.Sublist.refl []⟩
  | cons j is ih =>
    unfold innerAux at h
    cases hm2 : cellStep cfg now (reads j) o j m with
    | none => rw [hm2] at h; exact absurd h (by simp)
    | some m2 =>
      rw [hm2] at h
      obtain ⟨cs, hcs, hsub⟩ := ih m2 h
      rcases cellStep_channel cfg now (reads j) o j m m2 hm2 with hch | ⟨b, hch⟩
      · exact ⟨cs, by rw [hcs, hch], hsub.cons j⟩
      · refine ⟨(j, b) :: cs, ?_, hsub.cons₂ j⟩
        rw [hcs, hch, List.append_assoc]
        rfl

theorem outerAux_events (cfg : Config σ) (now : Nat) (reads : Nat → Nat → Option Bool)
    (writeRes : Nat → Option Unit) (os : List Nat) (m m' : CentralMatrix σ)
    (h : outerAux cfg now reads writeRes os m = some m') (hpw : os.Pairwise (· < ·)) :
    ∃ cs : List ((Nat × Nat) × Bool),
      m'.channel =
        m.channel ++
          cs.map (fun c => ⟨eventRow cfg c.1.1 c.1.2, eventCol cfg c.1.1 c.1.2, c.2⟩) ∧
      cs.Pairwise (fun a b => cellLt a.1 b.1) ∧
      ∀ c ∈ cs, c.1.1 ∈ os ∧ c.1.2 < cfg.INPUT_PIN_NUM := by
  induction os generalizing m with
  | nil =>
    unfold outerAux at h
    cases h
    exact ⟨[], by simp, List.Pairwise.nil, by simp⟩
  | cons o os ih =>
    unfold outerAux at h
    cases hm2 : scanInner cfg now (reads o) o m with
    | none => rw [hm2] at h; exact absurd h (by simp)
    | some m2 =>
      rw [hm2] at h
      obtain ⟨cs0, hcs0, hsub0⟩ :=
        innerAux_events cfg now (reads o) o (List.range cfg.INPUT_PIN_NUM) m m2 hm2
      obtain ⟨cs1, hcs1, hpw1, hmem1⟩ := ih m2 h (List.Pairwise.sublist (List.sublist_cons_self o os) hpw)
      have hlt : ∀ x ∈ cs0.map Prod.fst, x < cfg.INPUT_PIN_NUM := by
        intro x hx
        exact List.mem_range.mp (hsub0.mem hx)
      have hpw0 : (cs0.map Prod.fst).Pairwise (· < ·) :=
        List.Pairwise.sublist hsub0 (List.pairwise_lt_range cfg.INPUT_PIN_NUM)
      refine ⟨cs0.map (fun c => ((o, c.1), c.2)) ++ cs1, ?_, ?_, ?_⟩
      · rw [hcs1, hcs0, List.append_assoc, List.map_append, List.map_map]
        rfl
      · rw [List.pairwise_append]
        refine ⟨?_, hpw1, ?_⟩
        · rw [List.pairwise_map]
          rw [List.pairwise_map] at hpw0
          exact hpw0.imp (fun hab => Or.inr ⟨rfl, hab⟩)
        · intro a ha b hb
          obtain ⟨c0, _, rfl⟩ := List.mem_map.mp ha
          have hbo : b.1.1 ∈ os := (hmem1 b hb).1
          have holt : o < b.1.1 := (List.pairwise_cons.mp hpw).1 b.1.1 hbo
          exact Or.inl holt
      · intro c hc
        rcases List.mem_append.mp hc with hc0 | hc1
        · obtain ⟨c0, hc0m, rfl⟩ := List.mem_map.mp hc0
          exact ⟨List.mem_cons_self o os, hlt c0.1 (List.mem_map_of_mem Prod.fst hc0m)⟩
        · exact ⟨List.mem_cons_of_mem o (hmem1 c hc1).1, (hmem1 c hc1).2⟩

theorem scanCycle_events (cfg : Config σ) (now : Nat) (reads : Nat → Nat → Option Bool)
    (writeRes : Nat → Option Unit) (m m' : CentralMatrix σ)
    (h : scanCycle cfg now reads writeRes m = some m') :
    ∃ cs : List ((Nat × Nat) × Bool),
      m'.channel =
        m.channel ++
          cs.map (fun c => ⟨eventRow cfg c.1.1 c.1.2, eventCol cfg c.1.1 c.1.2, c.2⟩) ∧
      cs.Pairwise (fun a b => cellLt a.1 b.1) ∧
      ∀ c ∈ cs, c.1.1 < cfg.OUTPUT_PIN_NUM ∧ c.1.2 < cfg.INPUT_PIN_NUM := by
  obtain ⟨cs, hch, hpw, hmem⟩ :=
    outerAux_events cfg now reads writeRes (List.range cfg.OUTPUT_PIN_NUM) m m' h
      (List.pairwise_lt_range cfg.OUTPUT_PIN_NUM)
  exact ⟨cs, hch, hpw, fun c hc => ⟨List.mem_range.mp (hmem c hc).1, (hmem c hc).2⟩⟩

/-! ### Helper lemmas for the read/write fail-safe and emitted events -/

theorem innerAux_read_fail (cfg : Config σ) (now : Nat) (reads : Nat → Option Bool)
    (o : Nat) (is : List Nat) (m : CentralMatrix σ) :
    innerAux cfg now reads o is m =
      innerAux cfg now (fun i => some ((reads i).getD false)) o is m := by
  induction is generalizing m with
  | nil => rfl
  | cons j is ih =>
    unfold innerAux
    have hcell : cellStep cfg now (some ((reads j).getD false)) o j m =
        cellStep cfg now (reads j) o j m := rfl
    rw [hcell]
    cases h : cellStep cfg now (reads j) o j m with
    | none => rfl
    | some m2 => exact ih m2

theorem outerAux_read_fail (cfg : Config σ) (now : Nat) (reads : Nat → Nat → Option Bool)
    (writeRes : Nat → Option Unit) (os : List Nat) (m : CentralMatrix σ) :
    outerAux cfg now reads writeRes os m =
      outerAux cfg now (fun o i => some ((reads o i).getD false)) writeRes os m := by
  induction os generalizing m with
  | nil => rfl
  | cons o os ih =>
    unfold outerAux scanInner
    rw [← innerAux_read_fail cfg now (reads o) o (List.range cfg.INPUT_PIN_NUM) m]
    cases h : innerAux cfg now (reads o) o (List.range cfg.INPUT_PIN_NUM) m with
    | none => rfl
    | some m2 => exact ih m2

theorem outerAux_write_indep (cfg : Config σ) (now : Nat) (reads : Nat → Nat → Option Bool)
    (writeRes writeRes' : Nat → Option Unit) (os : List Nat) (m : CentralMatrix σ) :
    outerAux cfg now reads writeRes os m = outerAux cfg now reads writeRes' os m := by
  induction os generalizing m with
  | nil => rfl
  | cons o os ih =>
    unfold outerAux scanInner
    cases h : innerAux cfg now (reads o) o (List.range cfg.INPUT_PIN_NUM) m with
    | none => rfl
    | some m2 => exact ih m2

theorem cellStep_emitted (cfg : Config σ) (now : Nat) (raw : Option Bool) (o i : Nat)
    (m m' : CentralMatrix σ) (e : KeyEvent) (hstep : cellStep cfg now raw o i m = some m')
    (hemit : m'.channel = m.channel ++ [e]) :
    ∃ b, e = ⟨eventRow cfg o i, eventCol cfg o i, b⟩ := by
  rcases cellStep_channel cfg now raw o i m m' hstep with hch | ⟨b, hch⟩
  · have hcontra := hch.symm.trans hemit
    exact absurd hcontra (by simp)
  · have h2 := List.append_cancel_left (hch.symm.trans hemit)
    have h3 : (⟨eventRow cfg o i, eventCol cfg o i, b⟩ : KeyEvent) = e := by
      injection h2
    exact ⟨b, h3.symm⟩

theorem scanCycle_WF (cfg : Config σ) (now : Nat) (reads : Nat → Nat → Option Bool)
    (writeRes : Nat → Option Unit) (m m' : CentralMatrix σ) (hwf : WF cfg m)
    (h : scanCycle cfg now reads writeRes m = some m') : WF cfg m' := by
  obtain ⟨m2, h2, hwf2⟩ := scanCycle_total_WF cfg now reads writeRes m hwf
  rw [h] at h2
  have he := Option.some_inj.mp h2
  subst he
  exact hwf2

/-! ### The claims -/

/-- C3, counterexample to the claim as stated: the claim asserts that
immediately after construction, before any polling pass, `wait_for_key`
returns without blocking.  In fact `CentralMatrix::new` leaves
`scan_start` unset, and `wait_for_key` with an unset `scan_start` falls
through to the blocking branch, so the very first loop iteration blocks
until an input line goes high. -/
theorem claim_C3_counterexample :
    (wait_for_key exCfg 0 0 (CentralMatrix.new exCfg ()).scan_start).blocked = true := by
  rfl

/-- C3, amended: the blocking hardware wait is skipped exactly when the
scan-start timestamp is set and less than one second has elapsed since
it; it is entered when the timestamp is unset — which is the case
immediately after construction — or when at least one second has
elapsed.  Without the `async_matrix` capability a loop trip is just the
polling pass and `wait_for_key` is never consulted. -/
theorem claim_C3_idle_wait_entry (cfg : Config σ) (nowEnter nowWake : Nat)
    (ss : Option Nat) :
    ((wait_for_key cfg nowEnter nowWake ss).blocked = false ↔
      ∃ start, ss = some start ∧ (nowEnter - start) / ticksPerSec < 1) ∧
    (∀ deb : σ, (CentralMatrix.new cfg deb).scan_start = none) ∧
    (∀ inp (m : CentralMatrix σ), cfg.async_matrix = false →
      loopStep cfg inp m = scanCycle cfg inp.nowScan inp.reads inp.writeRes m) := by
  refine ⟨?_, fun deb => rfl, ?_⟩
  · unfold wait_for_key
    cases ss with
    | none => simp
    | some start =>
      dsimp only
      split
      · rename_i hlt
        simp only [true_iff]
        exact ⟨start, rfl, hlt⟩
      · rename_i hge
        simp only [Bool.true_eq_false, false_iff, not_exists]
        rintro x ⟨hx, hlt⟩
        cases hx
        exact hge hlt
  · intro inp m hna
    unfold loopStep
    rw [if_neg (by rw [hna]; exact Bool.false_ne_true)]

/-- C6: whenever the blocking branch of `wait_for_key` is taken, the pin
actions are exactly: every output line driven high in index order, the
settle delay, the single hardware wait for any input line to go high,
then every output line driven low in index order; no input polling
happens in between; `scan_start` is reset to the wake-up instant; and
(under `async_matrix`) the loop resumes with a full polling pass using
the `scan_start` left by `wait_for_key`. -/
theorem claim_C6_waiting_sequence (cfg : Config σ) (nowEnter nowWake : Nat)
    (ss : Option Nat) (h : (wait_for_key cfg nowEnter nowWake ss).blocked = true) :
    (wait_for_key cfg nowEnter nowWake ss).actions =
      ((List.range cfg.OUTPUT_PIN_NUM).map PinAction.setHigh)
        ++ [PinAction.settle, PinAction.waitAnyHigh]
        ++ ((List.range cfg.OUTPUT_PIN_NUM).map PinAction.setLow) ∧
    (wait_for_key cfg nowEnter nowWake ss).scan_start = some nowWake ∧
    (∀ a ∈ (wait_for_key cfg nowEnter nowWake ss).actions, ∀ o i, a ≠ PinAction.readPin o i) ∧
    (∀ inp (m : CentralMatrix σ), cfg.async_matrix = true →
      loopStep cfg inp m =
        scanCycle cfg inp.nowScan inp.reads inp.writeRes
          { m with
            scan_start := (wait_for_key cfg inp.nowEnter inp.nowWake m.scan_start).scan_start }) := by
  have hblock : wait_for_key cfg nowEnter nowWake ss =
      { blocked := true,
        actions :=
          ((List.range cfg.OUTPUT_PIN_NUM).map PinAction.setHigh)
            ++ [PinAction.settle, PinAction.waitAnyHigh]
            ++ ((List.range cfg.OUTPUT_PIN_NUM).map PinAction.setLow),
        scan_start := some nowWake } := by
    unfold wait_for_key at h ⊢
    cases ss with
    | none => rfl
    | some start =>
      dsimp only at h ⊢
      split at h
      · exact absurd h (by simp)
      · split
        · rename_i hge hlt
          exact absurd hlt hge
        · rfl
  refine ⟨by rw [hblock], by rw [hblock], ?_, ?_⟩
  · rw [hblock]
    intro a ha o' i'
    rcases List.mem_append.mp ha with h1 | h2
    · rcases List.mem_append.mp h1 with h1a | h1b
      · obtain ⟨x, _, rfl⟩ := List.mem_map.mp h1a
        exact fun hc => PinAction.noConfusion hc
      · rcases List.mem_cons.mp h1b with rfl | h1c
        · exact fun hc => PinAction.noConfusion hc
        · rcases List.mem_cons.mp h1c with rfl | h1d
          · exact fun hc => PinAction.noConfusion hc
          · exact absurd h1d (List.not_mem_nil a)
    · obtain ⟨x, _, rfl⟩ := List.mem_map.mp h2
      exact fun hc => PinAction.noConfusion hc
  · intro inp m ha
    unfold loopStep
    rw [if_pos ha]

/-- C8: `get_key_state row col` and `update_key_state row col f` read and
write `key_states[row][col]`: the first argument always selects the
output-line index and the second the input-line index, they succeed
exactly on `row < OUTPUT_PIN_NUM` and `col < INPUT_PIN_NUM` and panic
(modelled as `none`) outside those bounds; and under `col2row` — where
the KeyEvent row is derived from the input index and the KeyEvent col
from the output index — the accessors address the transposed cell
relative to the coordinates carried by emitted events. -/
theorem claim_C8_accessor_indexing (cfg : Config σ) (m : CentralMatrix σ)
    (f : KeyState → KeyState) (row col o i : Nat) (hwf : WF cfg m) :
    (row < cfg.OUTPUT_PIN_NUM → col < cfg.INPUT_PIN_NUM →
      (∃ k, get_key_state m row col = some k) ∧
      (∃ m2, update_key_state m row col f = some m2)) ∧
    (cfg.OUTPUT_PIN_NUM ≤ row ∨ cfg.INPUT_PIN_NUM ≤ col →
      get_key_state m row col = none ∧ update_key_state m row col f = none) ∧
    (cfg.col2row = true → o < cfg.OUTPUT_PIN_NUM → i < cfg.INPUT_PIN_NUM →
      i + cfg.ROW_OFFSET < 256 → o + cfg.COL_OFFSET < 256 →
      eventRow cfg o i = i + cfg.ROW_OFFSET ∧ eventCol cfg o i = o + cfg.COL_OFFSET ∧
      get_key_state m o i = getKS m.key_states o i) := by
  refine ⟨?_, ?_, ?_⟩
  · intro hrow hcol
    obtain ⟨k, hk⟩ := getKS_isSome_of_WF cfg m hwf row col hrow hcol
    refine ⟨⟨k, hk⟩, ?_⟩
    unfold update_key_state
    rw [hk]
    exact ⟨_, rfl⟩
  · intro hoob
    have hnone := getKS_eq_none_of_oob cfg m hwf row col hoob
    constructor
    · exact hnone
    · unfold update_key_state
      rw [hnone]
  · intro hcr hor hir hrb hcb
    refine ⟨?_, ?_, rfl⟩
    · unfold eventRow
      rw [if_pos hcr]
      exact Nat.mod_eq_of_lt hrb
    · unfold eventCol
      rw [if_pos hcr]
      exact Nat.mod_eq_of_lt hcb

/-- C10: the scan loop has no exit path: from any well-formed state and
under any input sequence, after every number of cycles the state is
defined and well-formed, and the next state is always obtained by one
more trip of the loop body — there is no error or termination value. -/
theorem claim_C10_no_exit (cfg : Config σ) (ins : Nat → CycleInput) (m : CentralMatrix σ)
    (hwf : WF cfg m) (n : Nat) :
    ∃ m', runN cfg ins m n = some m' ∧ WF cfg m' ∧
      runN cfg ins m (n + 1) = loopStep cfg (ins n) m' := by
  obtain ⟨m', h, hwf'⟩ := runN_total_WF cfg ins m hwf n
  refine ⟨m', h, hwf', ?_⟩
  unfold runN
  rw [h]

/-- C2: pin faults are fail-safe and never become errors.  A failed read
(`none`) behaves exactly like reading the inactive level `false`, both
for a single cell step and for a whole polling pass; the results of the
output-pin writes are discarded, so the pass is independent of write
failures; and from a well-formed state the pass always completes — no
hardware fault is returned as an error and none halts the loop. -/
theorem claim_C2_pin_fault_fail_safe (cfg : Config σ) (now : Nat)
    (reads : Nat → Nat → Option Bool) (writeRes writeRes' : Nat → Option Unit)
    (m : CentralMatrix σ) (o i : Nat) (hwf : WF cfg m) :
    cellStep cfg now none o i m = cellStep cfg now (some false) o i m ∧
    scanCycle cfg now reads writeRes m =
      scanCycle cfg now (fun o' i' => some ((reads o' i').getD false)) writeRes m ∧
    scanCycle cfg now reads writeRes m = scanCycle cfg now reads writeRes' m ∧
    ∃ m', scanCycle cfg now reads writeRes m = some m' := by
  refine ⟨rfl, ?_, ?_, ?_⟩
  · exact outerAux_read_fail cfg now reads writeRes (List.range cfg.OUTPUT_PIN_NUM) m
  · exact outerAux_write_indep cfg now reads writeRes writeRes'
      (List.range cfg.OUTPUT_PIN_NUM) m
  · obtain ⟨m', h, _⟩ := scanCycle_total_WF cfg now reads writeRes m hwf
    exact ⟨m', h⟩

/-- C4: the events sent during one polling pass are exactly the events
of some strictly increasing (in the lexicographic (out_idx, in_idx) scan
order) sequence of cells, appended one at a time to the channel in that
order — simultaneous confirmed transitions are neither reordered nor
batched. -/
theorem claim_C4_emission_order (cfg : Config σ) (now : Nat)
    (reads : Nat → Nat → Option Bool) (writeRes : Nat → Option Unit)
    (m m' : CentralMatrix σ) (h : scanCycle cfg now reads writeRes m = some m') :
    ∃ cs : List ((Nat × Nat) × Bool),
      m'.channel =
        m.channel ++
          cs.map (fun c => ⟨eventRow cfg c.1.1 c.1.2, eventCol cfg c.1.1 c.1.2, c.2⟩) ∧
      cs.Pairwise (fun a b => cellLt a.1 b.1) ∧
      ∀ c ∈ cs, c.1.1 < cfg.OUTPUT_PIN_NUM ∧ c.1.2 < cfg.INPUT_PIN_NUM :=
  scanCycle_events cfg now reads writeRes m m' h

/-- C5: an event emitted by a `Debounced` transition at cell
`(out_idx, in_idx) = (o, i)` carries the cell's coordinates translated
by the configured offsets according to the wiring orientation: under
`col2row` the row is `i + ROW_OFFSET` and the col is `o + COL_OFFSET`,
otherwise the row is `o + ROW_OFFSET` and the col is `i + COL_OFFSET`
(exactly, provided the sums fit in a `u8`). -/
theorem claim_C5_event_coordinates (cfg : Config σ) (now : Nat) (raw : Option Bool)
    (o i : Nat) (m m' : CentralMatrix σ) (e : KeyEvent)
    (hstep : cellStep cfg now raw o i m = some m')
    (hemit : m'.channel = m.channel ++ [e])
    (hr : (if cfg.col2row then i + cfg.ROW_OFFSET else o + cfg.ROW_OFFSET) < 256)
    (hc : (if cfg.col2row then o + cfg.COL_OFFSET else i + cfg.COL_OFFSET) < 256) :
    e.row = (if cfg.col2row then i + cfg.ROW_OFFSET else o + cfg.ROW_OFFSET) ∧
    e.col = (if cfg.col2row then o + cfg.COL_OFFSET else i + cfg.COL_OFFSET) := by
  obtain ⟨b, rfl⟩ := cellStep_emitted cfg now raw o i m m' e hstep hemit
  cases hcr : cfg.col2row with
  | true =>
    rw [hcr, if_pos rfl] at hr hc
    unfold eventRow eventCol
    rw [hcr]
    simp only [if_pos, if_pos rfl]
    exact ⟨Nat.mod_eq_of_lt hr, Nat.mod_eq_of_lt hc⟩
  | false =>
    rw [hcr, if_neg (by simp)] at hr hc
    unfold eventRow eventCol
    rw [hcr]
    simp only [Bool.false_eq_true, if_neg, if_false]
    exact ⟨Nat.mod_eq_of_lt hr, Nat.mod_eq_of_lt hc⟩

/-- C9: the `as u8` casts in the event construction reduce the
translated coordinates modulo 256, so whenever the true global
coordinate is 256 or more, the emitted coordinate silently wraps and
differs from it. -/
theorem claim_C9_u8_wrap (cfg : Config σ) (now : Nat) (raw : Option Bool)
    (o i : Nat) (m m' : CentralMatrix σ) (e : KeyEvent)
    (hstep : cellStep cfg now raw o i m = some m')
    (hemit : m'.channel = m.channel ++ [e]) :
    e.row = (if cfg.col2row then i + cfg.ROW_OFFSET else o + cfg.ROW_OFFSET) % 256 ∧
    e.col = (if cfg.col2row then o + cfg.COL_OFFSET else i + cfg.COL_OFFSET) % 256 ∧
    (256 ≤ (if cfg.col2row then i + cfg.ROW_OFFSET else o + cfg.ROW_OFFSET) →
      e.row ≠ (if cfg.col2row then i + cfg.ROW_OFFSET else o + cfg.ROW_OFFSET)) ∧
    (256 ≤ (if cfg.col2row then o + cfg.COL_OFFSET else i + cfg.COL_OFFSET) →
      e.col ≠ (if cfg.col2row then o + cfg.COL_OFFSET else i + cfg.COL_OFFSET)) := by
  obtain ⟨b, rfl⟩ := cellStep_emitted cfg now raw o i m m' e hstep hemit
  have hrow : eventRow cfg o i =
      (if cfg.col2row then i + cfg.ROW_OFFSET else o + cfg.ROW_OFFSET) % 256 := by
    unfold eventRow
    cases hcr : cfg.col2row <;> simp
  have hcol : eventCol cfg o i =
      (if cfg.col2row then o + cfg.COL_OFFSET else i + cfg.COL_OFFSET) % 256 := by
    unfold eventCol
    cases hcr : cfg.col2row <;> simp
  refine ⟨hrow, hcol, ?_, ?_⟩
  · intro hbig
    have hlt : (if cfg.col2row then i + cfg.ROW_OFFSET else o + cfg.ROW_OFFSET) % 256 < 256 :=
      Nat.mod_lt _ (by omega)
    rw [show (⟨eventRow cfg o i, eventCol cfg o i, b⟩ : KeyEvent).row = eventRow cfg o i
        from rfl, hrow]
    omega
  · intro hbig
    have hlt : (if cfg.col2row then o + cfg.COL_OFFSET else i + cfg.COL_OFFSET) % 256 < 256 :=
      Nat.mod_lt _ (by omega)
    rw [show (⟨eventRow cfg o i, eventCol cfg o i, b⟩ : KeyEvent).col = eventCol cfg o i
        from rfl, hcol]
    omega

/-- C7: during a polling pass with `async_matrix` enabled, if any cell
is pressed when the pass ends then `scan_start` was refreshed to the
pass's current instant, and if no cell is pressed then the pass left
`scan_start` untouched.  (Each cell is visited exactly once per pass and
the refresh check runs right after the cell's debounce update, so a
cell's state at its check equals its state at the end of the pass.) -/
theorem claim_C7_scan_start_refresh (cfg : Config σ) (now : Nat)
    (reads : Nat → Nat → Option Bool) (writeRes : Nat → Option Unit)
    (m m' : CentralMatrix σ) (ha : cfg.async_matrix = true) (hwf : WF cfg m)
    (h : scanCycle cfg now reads writeRes m = some m') :
    (anyPressed m'.key_states = true → m'.scan_start = some now) ∧
    (anyPressed m'.key_states = false → m'.scan_start = m.scan_start) := by
  have hwf' : WF cfg m' := scanCycle_WF cfg now reads writeRes m m' hwf h
  constructor
  · intro hp
    obtain ⟨o, i, k, hk, hkp⟩ := (anyPressed_iff m'.key_states).mp hp
    obtain ⟨ho, hi⟩ := getKS_bounds cfg m' hwf' o i k hk
    exact outerAux_press_set cfg now reads writeRes (List.range cfg.OUTPUT_PIN_NUM) m m'
      ha (List.nodup_range cfg.OUTPUT_PIN_NUM) h
      ⟨o, List.mem_range.mpr ho, i, hi, k, hk, hkp⟩
  · intro hp
    refine outerAux_press_keep cfg now reads writeRes (List.range cfg.OUTPUT_PIN_NUM) m m'
      (List.nodup_range cfg.OUTPUT_PIN_NUM) h ?_
    intro o _ i _ k hk
    cases hkp : k.pressed with
    | false => rfl
    | true =>
      have : anyPressed m'.key_states = true := (anyPressed_iff m'.key_states).mpr ⟨o, i, k, hk, hkp⟩
      rw [this] at hp
      exact absurd hp (by simp)

/-- C1: the Key-State Store mirrors the event stream.  At initialization
every cell is unpressed and nothing has been sent; after any number of
scan cycles, every cell's stored pressed bit equals the `pressed` field
of the most recent event sent for that cell (or `false` if none); and in
any single cell step either nothing is sent and the grid is unchanged,
or the cell's bit is first toggled and then exactly one event for that
cell carrying the new stored value is sent. -/
theorem claim_C1_store_mirrors_last_event (cfg : Config σ) (deb : σ)
    (ins : Nat → CycleInput) (n o i : Nat) (m' : CentralMatrix σ) (hOK : OffsetsOK cfg)
    (ho : o < cfg.OUTPUT_PIN_NUM) (hi : i < cfg.INPUT_PIN_NUM)
    (hrun : runN cfg ins (CentralMatrix.new cfg deb) n = some m') :
    getKS (CentralMatrix.new cfg deb).key_states o i = some ⟨false⟩ ∧
    (CentralMatrix.new cfg deb).channel = [] ∧
    getKS m'.key_states o i = some ⟨lastPressedFor cfg m'.channel o i⟩ ∧
    ∀ now raw (m0 m1 : CentralMatrix σ), cellStep cfg now raw o i m0 = some m1 →
      (m1.key_states = m0.key_states ∧ m1.channel = m0.channel) ∨
      ∃ ks0, getKS m0.key_states o i = some ks0 ∧
        getKS m1.key_states o i = some ks0.toggle_pressed ∧
        m1.channel = m0.channel ++
          [⟨eventRow cfg o i, eventCol cfg o i, ks0.toggle_pressed.pressed⟩] := by
  refine ⟨Mirror_new cfg deb o ho i hi, rfl, ?_, ?_⟩
  · exact runN_Mirror cfg ins (CentralMatrix.new cfg deb) m' hOK (Mirror_new cfg deb) n
      hrun o ho i hi
  · intro now0 raw m0 m1 hstep
    rcases (cellStep_spec cfg now0 raw o i m0 m1 hstep).2.2 with h1 | h2
    · exact Or.inl h1
    · exact Or.inr h2

/-! ### Witnesses -/

/-- C1 witness: one loop trip of the 2×2 example, checked at cell (0,0). -/
theorem claim_C1_witness :
    OffsetsOK exCfg ∧ (0 : Nat) < exCfg.OUTPUT_PIN_NUM ∧ (0 : Nat) < exCfg.INPUT_PIN_NUM ∧
    runN exCfg exIns (CentralMatrix.new exCfg ()) 1 = some exM1 ∧
    (getKS (CentralMatrix.new exCfg ()).key_states 0 0 = some ⟨false⟩ ∧
      (CentralMatrix.new exCfg ()).channel = [] ∧
      getKS exM1.key_states 0 0 = some ⟨lastPressedFor exCfg exM1.channel 0 0⟩ ∧
      ∀ now raw (m0 m1 : CentralMatrix Unit), cellStep exCfg now raw 0 0 m0 = some m1 →
        (m1.key_states = m0.key_states ∧ m1.channel = m0.channel) ∨
        ∃ ks0, getKS m0.key_states 0 0 = some ks0 ∧
          getKS m1.key_states 0 0 = some ks0.toggle_pressed ∧
          m1.channel = m0.channel ++
            [⟨eventRow exCfg 0 0, eventCol exCfg 0 0, ks0.toggle_pressed.pressed⟩]) :=
  ⟨by decide, by decide, by decide, by rfl,
    claim_C1_store_mirrors_last_event exCfg () exIns 1 0 0 exM1 (by decide) (by decide)
      (by decide) (by rfl)⟩

/-- C2 witness: the fail-safe behaviour on the 2×2 example (whose reads
include a failed read at cell (1,0)). -/
theorem claim_C2_witness :
    WF exCfg exM0 ∧
    (cellStep exCfg 7 none 0 0 exM0 = cellStep exCfg 7 (some false) 0 0 exM0 ∧
      scanCycle exCfg 7 exReads exWrite exM0 =
        scanCycle exCfg 7 (fun o' i' => some ((exReads o' i').getD false)) exWrite exM0 ∧
      scanCycle exCfg 7 exReads exWrite exM0 =
        scanCycle exCfg 7 exReads (fun _ => none) exM0 ∧
      ∃ m', scanCycle exCfg 7 exReads exWrite exM0 = some m') :=
  ⟨by decide,
    claim_C2_pin_fault_fail_safe exCfg 7 exReads exWrite (fun _ => none) exM0 0 0 (by decide)⟩

/-- C4 witness: one polling pass of the 2×2 example confirms cells (0,0)
and (1,1); the theorem yields their events in scan order. -/
theorem claim_C4_witness :
    scanCycle exCfg 7 exReads exWrite exM0 = some exM1 ∧
    (∃ cs : List ((Nat × Nat) × Bool),
      exM1.channel =
        exM0.channel ++
          cs.map (fun c => ⟨eventRow exCfg c.1.1 c.1.2, eventCol exCfg c.1.1 c.1.2, c.2⟩) ∧
      cs.Pairwise (fun a b => cellLt a.1 b.1) ∧
      ∀ c ∈ cs, c.1.1 < exCfg.OUTPUT_PIN_NUM ∧ c.1.2 < exCfg.INPUT_PIN_NUM) :=
  ⟨by rfl, claim_C4_emission_order exCfg 7 exReads exWrite exM0 exM1 (by rfl)⟩

/-- C5 witness: the cell step on cell (0,0) of the example emits the
event with row 0 + 4 and col 0 + 6 (col2row orientation). -/
theorem claim_C5_witness :
    cellStep exCfg 7 (some true) 0 0 exM0 = some exM2 ∧
    exM2.channel = exM0.channel ++ [⟨4, 6, true⟩] ∧
    (if exCfg.col2row then 0 + exCfg.ROW_OFFSET else 0 + exCfg.ROW_OFFSET) < 256 ∧
    (if exCfg.col2row then 0 + exCfg.COL_OFFSET else 0 + exCfg.COL_OFFSET) < 256 ∧
    ((⟨4, 6, true⟩ : KeyEvent).row =
        (if exCfg.col2row then 0 + exCfg.ROW_OFFSET else 0 + exCfg.ROW_OFFSET) ∧
      (⟨4, 6, true⟩ : KeyEvent).col =
        (if exCfg.col2row then 0 + exCfg.COL_OFFSET else 0 + exCfg.COL_OFFSET)) :=
  ⟨by rfl, by rfl, by decide, by decide,
    claim_C5_event_coordinates exCfg 7 (some true) 0 0 exM0 exM2 ⟨4, 6, true⟩ (by rfl)
      (by rfl) (by decide) (by decide)⟩

/-- C6 witness: a blocked `wait_for_key` call on the example (fresh
state, `scan_start` unset). -/
theorem claim_C6_witness :
    (wait_for_key exCfg 0 5 none).blocked = true ∧
    ((wait_for_key exCfg 0 5 none).actions =
        ((List.range exCfg.OUTPUT_PIN_NUM).map PinAction.setHigh)
          ++ [PinAction.settle, PinAction.waitAnyHigh]
          ++ ((List.range exCfg.OUTPUT_PIN_NUM).map PinAction.setLow) ∧
      (wait_for_key exCfg 0 5 none).scan_start = some 5 ∧
      (∀ a ∈ (wait_for_key exCfg 0 5 none).actions, ∀ o i, a ≠ PinAction.readPin o i) ∧
      (∀ inp (m : CentralMatrix Unit), exCfg.async_matrix = true →
        loopStep exCfg inp m =
          scanCycle exCfg inp.nowScan inp.reads inp.writeRes
            { m with
              scan_start :=
                (wait_for_key exCfg inp.nowEnter inp.nowWake m.scan_start).scan_start })) :=
  ⟨by rfl, claim_C6_waiting_sequence exCfg 0 5 none (by rfl)⟩

/-- C7 witness: the example pass ends with pressed cells, so the theorem
forces `scan_start` to the pass instant 7 (which `exM1` indeed has). -/
theorem claim_C7_witness :
    exCfg.async_matrix = true ∧ WF exCfg exM0 ∧
    scanCycle exCfg 7 exReads exWrite exM0 = some exM1 ∧
    ((anyPressed exM1.key_states = true → exM1.scan_start = some 7) ∧
      (anyPressed exM1.key_states = false → exM1.scan_start = exM0.scan_start)) :=
  ⟨by rfl, by decide, by rfl,
    claim_C7_scan_start_refresh exCfg 7 exReads exWrite exM0 exM1 (by rfl) (by decide)
      (by rfl)⟩

/-- C8 witness: the accessors on the fresh example state, checked at
(row, col) = (0, 0) and at cell (o, i) = (0, 1). -/
theorem claim_C8_witness :
    WF exCfg exM0 ∧
    (((0 : Nat) < exCfg.OUTPUT_PIN_NUM → (0 : Nat) < exCfg.INPUT_PIN_NUM →
        (∃ k, get_key_state exM0 0 0 = some k) ∧
        (∃ m2, update_key_state exM0 0 0 KeyState.toggle_pressed = some m2)) ∧
      (exCfg.OUTPUT_PIN_NUM ≤ 0 ∨ exCfg.INPUT_PIN_NUM ≤ 0 →
        get_key_state exM0 0 0 = none ∧
        update_key_state exM0 0 0 KeyState.toggle_pressed = none) ∧
      (exCfg.col2row = true → (0 : Nat) < exCfg.OUTPUT_PIN_NUM →
        (1 : Nat) < exCfg.INPUT_PIN_NUM → 1 + exCfg.ROW_OFFSET < 256 →
        0 + exCfg.COL_OFFSET < 256 →
        eventRow exCfg 0 1 = 1 + exCfg.ROW_OFFSET ∧
        eventCol exCfg 0 1 = 0 + exCfg.COL_OFFSET ∧
        get_key_state exM0 0 1 = getKS exM0.key_states 0 1)) :=
  ⟨by decide, claim_C8_accessor_indexing exCfg exM0 KeyState.toggle_pressed 0 0 0 1 (by decide)⟩

/-- C9 witness: with row offset 300 the emitted row is (0 + 300) mod 256
= 44 ≠ 300. -/
theorem claim_C9_witness :
    cellStep exCfg9 7 (some true) 0 0 (CentralMatrix.new exCfg9 ()) = some exM9 ∧
    exM9.channel = (CentralMatrix.new exCfg9 ()).channel ++ [⟨44, 6, true⟩] ∧
    ((⟨44, 6, true⟩ : KeyEvent).row =
        (if exCfg9.col2row then 0 + exCfg9.ROW_OFFSET else 0 + exCfg9.ROW_OFFSET) % 256 ∧
      (⟨44, 6, true⟩ : KeyEvent).col =
        (if exCfg9.col2row then 0 + exCfg9.COL_OFFSET else 0 + exCfg9.COL_OFFSET) % 256 ∧
      (256 ≤ (if exCfg9.col2row then 0 + exCfg9.ROW_OFFSET else 0 + exCfg9.ROW_OFFSET) →
        (⟨44, 6, true⟩ : KeyEvent).row ≠
          (if exCfg9.col2row then 0 + exCfg9.ROW_OFFSET else 0 + exCfg9.ROW_OFFSET)) ∧
      (256 ≤ (if exCfg9.col2row then 0 + exCfg9.COL_OFFSET else 0 + exCfg9.COL_OFFSET) →
        (⟨44, 6, true⟩ : KeyEvent).col ≠
          (if exCfg9.col2row then 0 + exCfg9.COL_OFFSET else 0 + exCfg9.COL_OFFSET))) :=
  ⟨by rfl, by rfl,
    claim_C9_u8_wrap exCfg9 7 (some true) 0 0 (CentralMatrix.new exCfg9 ()) exM9
      ⟨44, 6, true⟩ (by rfl) (by rfl)⟩

/-- C10 witness: two cycles of the example run; the loop is still going. -/
theorem claim_C10_witness :
    WF exCfg exM0 ∧
    ∃ m', runN exCfg exIns exM0 2 = some m' ∧ WF exCfg m' ∧
      runN exCfg exIns exM0 3 = loopStep exCfg (exIns 2) m' :=
  ⟨by decide, claim_C10_no_exit exCfg exIns exM0 (by decide) 2⟩
